import Mathlib

/-
Shallow embedding of src/create_structure.py (StructureReplicator).

The Python program manipulates two kinds of values:
  * nested dictionaries `dict[str, dict | None]` describing a folder/file
    structure (folders map to sub-dicts, files map to None); embedded below
    as the mutual inductives `Node` / `NodeMap` (a `NodeMap` is an
    insertion-ordered association list, exactly the observable behaviour of
    a Python dict: unique keys, assignment replaces the value in place,
    new keys are appended at the end);
  * the filesystem, embedded as the mutual inductives `FS` / `FSMap`
    (a directory is a finite map from entry name to entry; a regular file
    carries its text content, so that "never truncates or overwrites" is
    expressible).  Entry names are treated as atomic path components.

Python's in-place mutation through references held on the parser stack is
embedded by state passing: the stack stores the *path* of each container
(the chain of keys from the root's dict), and insertion goes through
`setAt`.  On every state the parser can reach, each stack path denotes an
existing container, and stack paths form a strictly increasing chain, so
the path-based embedding performs exactly the dict mutations the Python
code performs.
-/

set_option linter.unusedVariables false

mutual

inductive Node where
  | leaf : Node
  | container : NodeMap → Node

inductive NodeMap where
  | nil : NodeMap
  | cons : String → Node → NodeMap → NodeMap

end

mutual

inductive FS where
  | file : String → FS
  | dir : FSMap → FS

inductive FSMap where
  | nil : FSMap
  | cons : String → FS → FSMap → FSMap

end

/-- Lookup in a Python dict (`d[k]` / `d.get(k)`); first match. -/
def lookupN (k : String) : NodeMap → Option Node
  | .nil => none
  | .cons a v r => if a = k then some v else lookupN k r

/-- Membership test for a Python dict (`k in d`). -/
def containsN (k : String) : NodeMap → Bool
  | .nil => false
  | .cons a _ r => a = k || containsN k r

/-- Python dict assignment `d[k] = v`: replace the value of an existing key
in place, otherwise append the new binding at the end. -/
def insertD (k : String) (v : Node) : NodeMap → NodeMap
  | .nil => .cons k v .nil
  | .cons a w r => if a = k then .cons a v r else .cons a w (insertD k v r)

def keysN : NodeMap → List String
  | .nil => []
  | .cons a _ r => a :: keysN r

def toListN : NodeMap → List (String × Node)
  | .nil => []
  | .cons a v r => (a, v) :: toListN r

def listToMapN : List (String × Node) → NodeMap
  | [] => .nil
  | (k, v) :: r => .cons k v (listToMapN r)

def lookupF (k : String) : FSMap → Option FS
  | .nil => none
  | .cons a v r => if a = k then some v else lookupF k r

def containsF (k : String) : FSMap → Bool
  | .nil => false
  | .cons a _ r => a = k || containsF k r

/-- Creation of a new directory entry appends at the end of the listing. -/
def appendF (k : String) (v : FS) : FSMap → FSMap
  | .nil => .cons k v .nil
  | .cons a w r => .cons a w (appendF k v r)

/-- Replace the (first) entry named `k` by `v`, keeping its position. -/
def updateF (k : String) (v : FS) : FSMap → FSMap
  | .nil => .nil
  | .cons a w r => if a = k then .cons a v r else .cons a w (updateF k v r)

def keysF : FSMap → List String
  | .nil => []
  | .cons a _ r => a :: keysF r

def catF : FSMap → FSMap → FSMap
  | .nil, b => b
  | .cons a v r, b => .cons a v (catF r b)

/-! ### Structure Materializer: `create_structure` (src lines 84-108)

`create_structure(structure, target_path, create_files)` iterates over
`structure.items()`; for a dict value it runs `os.makedirs(current_path,
exist_ok=True)` (an error when a regular file already sits at that path,
a no-op when the directory exists) and recurses; for a `None` value, when
`create_files` holds, it creates an empty file unless something already
exists at that path.  The embedding threads the content of the target
directory; `createItem` handles one `(name, content)` pair.  Filesystem
failure (`os.makedirs` hitting an existing file) is `Except.error`. -/

mutual

def create_structure (create_files : Bool) : NodeMap → FSMap → Except Unit FSMap
  | .nil, fs => .ok fs
  | .cons name node rest, fs =>
    match createItem create_files name node fs with
    | .error e => .error e
    | .ok fs1 => create_structure create_files rest fs1

def createItem (create_files : Bool) (name : String) : Node → FSMap → Except Unit FSMap
  | .container ch, fs =>
    match lookupF name fs with
    | some (.file _) => .error ()
    | some (.dir sub) =>
      match create_structure create_files ch sub with
      | .error e => .error e
      | .ok sub1 => .ok (updateF name (.dir sub1) fs)
    | none =>
      match create_structure create_files ch .nil with
      | .error e => .error e
      | .ok sub1 => .ok (appendF name (.dir sub1) fs)
  | .leaf, fs =>
    if create_files then
      if containsF name fs then .ok fs else .ok (appendF name (.file "") fs)
    else .ok fs

end

/- Closed form of a successful run of `create_structure` on names that are
all fresh: every container becomes a fresh directory, every leaf a fresh
empty file (omitted when file creation is disabled), in structure order. -/
mutual

def freshMat (cf : Bool) : NodeMap → FSMap
  | .nil => .nil
  | .cons k v r => freshItem cf k v (freshMat cf r)

def freshItem (cf : Bool) (k : String) : Node → FSMap → FSMap
  | .leaf, rest => if cf then .cons k (.file "") rest else rest
  | .container ch, rest => .cons k (.dir (freshMat cf ch)) rest

end

/-! ### Well-formedness

A value that denotes a Python dict has pairwise distinct keys at every
level; a value that denotes a real directory likewise. -/

mutual

def wfMap : NodeMap → Bool
  | .nil => true
  | .cons k v r => !containsN k r && wfNode v && wfMap r

def wfNode : Node → Bool
  | .leaf => true
  | .container ch => wfMap ch

end

mutual

def wfFS : FSMap → Bool
  | .nil => true
  | .cons k v r => !containsF k r && wfEntry v && wfFS r

def wfEntry : FS → Bool
  | .file _ => true
  | .dir es => wfFS es

end

/-! ### Directory Snapshotter: `build_actual_tree` (src lines 54-82)

`os.walk` visits each directory top-down; the loop body inserts
`sorted(dirs)` as empty dicts and then `sorted(files)` as `None` into the
dict for that directory (`setdefault` later re-finds the dict of a
subdirectory and the recursion of the walk fills it in).  The net dict
built for a directory therefore holds its subdirectories first (sorted,
each carrying the dict built for it) and then its files (sorted), which is
what `snapEntry` computes.  A nonexistent path yields `{}` after a printed
warning; an existing path yields `{basename: tree}` (walking a regular
file yields no rows, so its `tree` is `{}`). -/

def isContainerN : Node → Bool
  | .container _ => true
  | .leaf => false

def insertSortedP (x : String × Node) : List (String × Node) → List (String × Node)
  | [] => [x]
  | y :: t => if y.1 ≤ x.1 then y :: insertSortedP x t else x :: y :: t

def sortP : List (String × Node) → List (String × Node)
  | [] => []
  | x :: t => insertSortedP x (sortP t)

def dirMapOf (l : List (String × Node)) : NodeMap :=
  listToMapN
    (sortP (l.filter (fun e => isContainerN e.2)) ++
      sortP (l.filter (fun e => !isContainerN e.2)))

mutual

def snapAll : FSMap → List (String × Node)
  | .nil => []
  | .cons k f r => (k, snapEntry f) :: snapAll r

def snapEntry : FS → Node
  | .file _ => .leaf
  | .dir es => .container (dirMapOf (snapAll es))

end

/-- Resolve a path (a list of atomic components) inside the filesystem. -/
def resolve : FS → List String → Option FS
  | f, [] => some f
  | .file _, _ :: _ => none
  | .dir es, k :: ps =>
    match lookupF k es with
    | none => none
    | some f => resolve f ps

/-- Model of `os.path.basename(os.path.abspath(folder))`: the last path
component. -/
def basename (p : List String) : String := p.getLastD ""

def build_actual_tree (world : FS) (p : List String) : Node :=
  match resolve world p with
  | none => .container .nil
  | some (.file _) => .container (.cons (basename p) (.container .nil) .nil)
  | some (.dir es) => .container (.cons (basename p) (.container (dirMapOf (snapAll es))) .nil)

/-! ### Tree Parser: `parse_tree` (src lines 5-52) -/

/-- Whitespace as stripped by Python's `str.strip()` / `str.rstrip()`
(for the characters that can occur within a single line). -/
def isWS (c : Char) : Bool := c = ' ' || c = '\t' || c = '\r' || c = '\n'

/-- Python `line.strip()` on the characters of one line. -/
def pyStrip (l : List Char) : List Char :=
  ((l.dropWhile isWS).reverse.dropWhile isWS).reverse

/-- Python `line.rstrip()`. -/
def pyRstrip (l : List Char) : List Char :=
  (l.reverse.dropWhile isWS).reverse

/-- Python `s.strip("/")`: remove every leading and trailing `'/'`. -/
def stripSlash (l : List Char) : List Char :=
  ((l.dropWhile (fun c => c = '/')).reverse.dropWhile (fun c => c = '/')).reverse

/-- Python `s.rstrip("/")`: remove every trailing `'/'`. -/
def rstripSlash (l : List Char) : List Char :=
  (l.reverse.dropWhile (fun c => c = '/')).reverse

def endsWithSlash (l : List Char) : Bool :=
  match l.getLast? with
  | some c => c = '/'
  | none => false

/-- Characters of the indentation alphabet of the regexes `^([ │]+)` and
`^[ │]*`. -/
def isIndentChar (c : Char) : Bool := c = ' ' || c = '│'

/-- Length of the match of `re.match(r'^([ │]+)', line)` (0 when there is
no match). -/
def countIndent (l : List Char) : Nat := (l.takeWhile isIndentChar).length

/-- `level = len(indent_str) // 4`. -/
def lineLevel (l : List Char) : Nat := countIndent l / 4

def leadsWith : List Char → List Char → Bool
  | [], _ => true
  | _ :: _, [] => false
  | a :: as, b :: bs => a = b && leadsWith as bs

/-- Model of `re.sub(r'^[ │]*(├── |└── )', '', line)`: the connector group
is mandatory, so the substitution fires exactly when the maximal leading
run of indentation characters is followed by one of the two 4-character
connectors (a shorter run cannot be followed by a connector, since
connectors do not start with an indentation character); otherwise the line
is returned unchanged. -/
def stripIndentConnector (l : List Char) : List Char :=
  let rest := l.dropWhile isIndentChar
  if leadsWith "├── ".data rest then rest.drop 4
  else if leadsWith "└── ".data rest then rest.drop 4
  else l

/-- The `while stack and stack[-1][0] >= level + 1: stack.pop()` loop; the
top of the Python stack (`stack[-1]`) is the head of the list here. -/
def popStack (lvl : Nat) (st : List (Nat × List String)) : List (Nat × List String) :=
  st.dropWhile (fun e => decide (lvl + 1 ≤ e.1))

/-- Perform `parent[k] = v` where `parent` is the container at `path`
inside the root's dict.  On every parser-reachable state the path denotes
an existing container, so the fall-through cases never fire there. -/
def setAt : List String → String → Node → NodeMap → NodeMap
  | [], k, v, m => insertD k v m
  | p :: ps, k, v, m =>
    match lookupN p m with
    | some (.container ch) => insertD p (.container (setAt ps k v ch)) m
    | _ => m

/-- One iteration of the `for line in lines[1:]` loop.  The state is the
root's dict (the value of `tree[root]`) together with the stack of
`(depth, container path)` pairs. -/
def step (st : NodeMap × List (Nat × List String)) (l : List Char) :
    NodeMap × List (Nat × List String) :=
  let lvl := lineLevel l
  let nm := pyStrip (stripIndentConnector l)
  let stack1 := popStack lvl st.2
  let parentPath : List String :=
    match stack1 with
    | [] => []
    | e :: _ => e.2
  if endsWithSlash nm then
    let name := String.mk (rstripSlash nm)
    (setAt parentPath name (.container .nil) st.1,
      (lvl + 1, parentPath ++ [name]) :: stack1)
  else
    (setAt parentPath (String.mk nm) .leaf st.1, stack1)

def initStack : List (Nat × List String) := [(0, [])]

def runParse (ls : List (List Char)) : NodeMap × List (Nat × List String) :=
  ls.foldl step (.nil, initStack)

/-- Python `tree_str.splitlines()`, for input whose line terminator is
`'\n'` (the extra empty final piece this produces for input ending in a
newline is blank and removed by the blank-line filter that follows). -/
def splitNl : List Char → List (List Char)
  | [] => [[]]
  | c :: cs =>
    match splitNl cs with
    | [] => [[]]
    | l :: ls => if c = '\n' then [] :: l :: ls else (c :: l) :: ls

def splitlines (s : String) : List (List Char) := splitNl s.data

def parse_tree (tree_str : String) : NodeMap :=
  let lines := ((splitlines tree_str).filter (fun l => !(pyStrip l).isEmpty)).map pyRstrip
  match lines with
  | [] => .nil
  | l0 :: rest =>
    let root := String.mk (stripSlash (pyStrip l0))
    let final := rest.foldl step (.nil, initStack)
    .cons root (.container final.1) .nil

/-! ### Orchestration: `main` (src lines 110-158)

`main` first opens and reads `args.baseline` (lines 122-128); `open()`
succeeds only on a readable regular file — on a directory it raises
(`IsADirectoryError` on POSIX, `PermissionError` on Windows) and on a
missing path it raises `FileNotFoundError` — and any exception there is
caught, printed as a baseline read error, and the run returns.  Only then
do the `isfile` / `isdir` branches run. -/

inductive BaselineArg where
  | fileArg : String → BaselineArg
  | dirArg : String → FSMap → BaselineArg
  | missing : BaselineArg

def pyOpen : BaselineArg → Option String
  | .fileArg c => some c
  | .dirArg _ _ => none
  | .missing => none

def isFileArg : BaselineArg → Bool
  | .fileArg _ => true
  | _ => false

def isDirArg : BaselineArg → Bool
  | .dirArg _ _ => true
  | _ => false

inductive RunOutcome where
  | success : FSMap → RunOutcome
  | readError : RunOutcome
  | invalidBaseline : RunOutcome
  | creationError : RunOutcome

namespace CreateStructurePy

def main (baseline : BaselineArg) (target : FSMap) (foldersOnly : Bool) : RunOutcome :=
  match pyOpen baseline with
  | none => .readError
  | some text =>
    if isFileArg baseline then
      match create_structure (!foldersOnly) (parse_tree text) target with
      | .ok fs => .success fs
      | .error _ => .creationError
    else if isDirArg baseline then
      match baseline with
      | .dirArg n c =>
        match create_structure (!foldersOnly)
            (.cons n (.container (dirMapOf (snapAll c))) .nil) target with
        | .ok fs => .success fs
        | .error _ => .creationError
      | _ => .invalidBaseline
    else .invalidBaseline

end CreateStructurePy

/-! ### Observations used by the claims -/

/- Classification-and-name equivalence of two structures: equal sets of
names and equal Container/Leaf classification at every path (insertion
order and file content disregarded). -/
mutual

def equivNode : Node → Node → Bool
  | .leaf, .leaf => true
  | .container a, .container b => subMap a b && (keysN b).all (fun k => (keysN a).contains k)
  | .leaf, .container _ => false
  | .container _, .leaf => false

def subMap : NodeMap → NodeMap → Bool
  | .nil, _ => true
  | .cons k v r, b =>
    (match lookupN k b with
     | some w => equivNode v w
     | none => false) && subMap r b

end

/-- A regular file sits at the given (nonempty) path. -/
def isFileAtF : FSMap → List String → Bool
  | _, [] => false
  | fs, k :: ps =>
    match lookupF k fs with
    | none => false
    | some (.file _) => ps.isEmpty
    | some (.dir sub) => if ps.isEmpty then false else isFileAtF sub ps

/-- A directory sits at the given path (the empty path is the target root
itself, a directory). -/
def isDirAtF : FSMap → List String → Bool
  | _, [] => true
  | fs, k :: ps =>
    match lookupF k fs with
    | none => false
    | some (.file _) => false
    | some (.dir sub) => if ps.isEmpty then true else isDirAtF sub ps

/-- The given (nonempty) path denotes a Container of the structure. -/
def hasDirPathN : NodeMap → List String → Bool
  | _, [] => false
  | s, k :: ps =>
    match lookupN k s with
    | some (.container ch) => if ps.isEmpty then true else hasDirPathN ch ps
    | _ => false

/-- Modelled from the claim C5's wording (not from the code): take the
trimmed first non-blank line and remove only one trailing `'/'`. -/
def specRootName (s : String) : String :=
  match (splitlines s).filter (fun l => !(pyStrip l).isEmpty) with
  | [] => ""
  | l0 :: _ =>
    let t := pyStrip l0
    match t.getLast? with
    | some '/' => String.mk t.dropLast
    | _ => String.mk t

def keysOfNode : Node → List String
  | .leaf => []
  | .container m => keysN m

/- Structure obtained by snapshotting a freshly materialized structure
(`snapAll` applied to `freshMat true s` computes `mapSnap s`); used to
relate `build_actual_tree` after `create_structure` back to `s`. -/
mutual

def mapSnap : NodeMap → List (String × Node)
  | .nil => []
  | .cons k v r => (k, snapTrans v) :: mapSnap r

def snapTrans : Node → Node
  | .leaf => .leaf
  | .container ch => .container (dirMapOf (mapSnap ch))

end

/-! ## Helper lemmas -/

theorem lookupN_insertD_self : ∀ (m : NodeMap) (k : String) (v : Node),
    lookupN k (insertD k v m) = some v
  | .nil, k, v => by simp [insertD, lookupN]
  | .cons a w r, k, v => by
    by_cases h : a = k
    · simp [insertD, lookupN, h]
    · simp [insertD, lookupN, h, lookupN_insertD_self r k v]

theorem containsN_iff_mem : ∀ (k : String) (m : NodeMap),
    containsN k m = true ↔ k ∈ keysN m
  | k, .nil => by simp [containsN, keysN]
  | k, .cons a w r => by
    by_cases h : a = k
    · simp [containsN, keysN, h]
    · simp [containsN, keysN, h, containsN_iff_mem k r, Ne.symm h]

theorem keysN_insertD : ∀ (k : String) (v : Node) (m : NodeMap),
    keysN (insertD k v m) = if containsN k m then keysN m else keysN m ++ [k]
  | k, v, .nil => by simp [insertD, keysN, containsN]
  | k, v, .cons a w r => by
    by_cases h : a = k
    · simp [insertD, keysN, containsN, h]
    · simp only [insertD, keysN, containsN, h, decide_False, Bool.false_or,
        if_false, keysN_insertD k v r]
      by_cases hc : containsN k r = true
      · simp [hc]
      · simp [hc]

theorem getLast?_dropWhile {α : Type} (p : α → Bool) (l : List α) (x : α)
    (hl : l.getLast? = some x) (hp : p x = false) :
    (l.dropWhile p).getLast? = some x ∧ l.dropWhile p ≠ [] := by
  induction l with
  | nil => simp at hl
  | cons a t ih =>
    by_cases hpa : p a = true
    · have ht : t ≠ [] := by
        intro h
        subst h
        simp only [List.getLast?_singleton, Option.some.injEq] at hl
        subst hl
        rw [hpa] at hp
        simp at hp
      have hl' : t.getLast? = some x := by
        cases t with
        | nil => exact absurd rfl ht
        | cons b t' =>
          rw [List.getLast?_cons_cons] at hl
          exact hl
      simpa [List.dropWhile_cons, hpa] using ih hl'
    · have hpa' : p a = false := by simpa using hpa
      simp [List.dropWhile_cons, hpa', hl]

theorem popStack_inv (lvl : Nat) (st : List (Nat × List String))
    (h : st.getLast? = some (0, [])) :
    (popStack lvl st).getLast? = some (0, []) ∧ popStack lvl st ≠ [] := by
  refine getLast?_dropWhile _ st (0, []) h ?_
  simp

theorem step_inv (st : NodeMap × List (Nat × List String)) (l : List Char)
    (h : st.2.getLast? = some (0, [])) :
    (step st l).2.getLast? = some (0, []) := by
  have hpop := popStack_inv (lineLevel l) st.2 h
  unfold step
  by_cases hf : endsWithSlash (pyStrip (stripIndentConnector l)) = true
  · simp only [hf, if_true]
    cases hc : popStack (lineLevel l) st.2 with
    | nil => exact absurd hc hpop.2
    | cons e rest =>
      rw [hc] at hpop
      simpa [List.getLast?_cons_cons] using hpop.1
  · simp only [Bool.not_eq_true] at hf
    simpa [hf] using hpop.1

theorem foldl_step_inv (ls : List (List Char)) (st : NodeMap × List (Nat × List String))
    (h : st.2.getLast? = some (0, [])) :
    (ls.foldl step st).2.getLast? = some (0, []) := by
  induction ls generalizing st with
  | nil => simpa using h
  | cons l ls ih => exact ih _ (step_inv st l h)

/-! ## Claim theorems -/

/-- C10: on every reachable parser state the stack still holds its initial
`(0, root)` entry at the bottom (the popping condition `depth ≥ level + 1 ≥ 1`
never holds for depth 0), so after popping the stack is never empty and the
`if stack else tree[root]` fallback of line 46 is unreachable. -/
theorem c10_stack_never_empty (ls : List (List Char)) :
    (runParse ls).2.getLast? = some (0, []) ∧
      ∀ lvl, popStack lvl (runParse ls).2 ≠ [] := by
  have h : (runParse ls).2.getLast? = some (0, []) :=
    foldl_step_inv ls (.nil, initStack) (by simp [initStack])
  exact ⟨h, fun lvl => (popStack_inv lvl _ h).2⟩

/-- C2: with the baseline argument naming an existing directory, the run
reports a baseline read error and stops: the read at lines 122-128 runs
before the `isfile`/`isdir` dispatch, and `open()` on a directory raises,
so the `build_actual_tree` branch of lines 139-140 is dead code. -/
theorem c2_directory_baseline_aborts (n : String) (c : FSMap) (target : FSMap)
    (fo : Bool) :
    CreateStructurePy.main (.dirArg n c) target fo = .readError := rfl

theorem popStack_filter (lvl : Nat) :
    ∀ (st : List (Nat × List String)),
      st.Pairwise (fun a b => b.1 < a.1) →
      popStack lvl st = st.filter (fun e => decide (e.1 < lvl + 1)) ∧
      ∀ e ∈ st, e.1 < lvl + 1 → ∀ q ∈ (popStack lvl st).head?, e.1 ≤ q.1
  | [], _ => by simp [popStack]
  | a :: t, hp => by
    rw [List.pairwise_cons] at hp
    obtain ⟨ha, ht⟩ := hp
    by_cases hc : lvl + 1 ≤ a.1
    · have ih := popStack_filter lvl t ht
      have h1 : popStack lvl (a :: t) = popStack lvl t := by
        simp [popStack, List.dropWhile_cons, hc]
      have h2 : (decide (a.1 < lvl + 1)) = false := by
        simp only [decide_eq_false_iff_not]
        omega
      constructor
      · rw [h1, ih.1, List.filter_cons, h2]
        simp
      · intro e he hlt q hq
        rw [h1] at hq
        rcases List.mem_cons.mp he with rfl | he'
        · omega
        · exact ih.2 e he' hlt q hq
    · have h2 : (decide (a.1 < lvl + 1)) = true := by
        simp only [decide_eq_true_eq]
        omega
      have h1 : popStack lvl (a :: t) = a :: t := by
        have : (decide (lvl + 1 ≤ a.1)) = false := by
          simp only [decide_eq_false_iff_not]
          omega
        simp [popStack, List.dropWhile_cons, this]
      constructor
      · rw [h1, List.filter_cons, h2]
        simp only [if_true]
        congr 1
        symm
        rw [List.filter_eq_self]
        intro e he
        have := ha e he
        simp only [decide_eq_true_eq]
        omega
      · intro e he hlt q hqm
        rw [h1] at hqm
        simp only [List.head?_cons, Option.mem_def, Option.some.injEq] at hqm
        subst hqm
        rcases List.mem_cons.mp he with rfl | he'
        · exact le_refl _
        · exact le_of_lt (ha e he')

/-- C4: the depth of a non-root line is the count of its leading characters
from `{space, '│'}` divided by 4; popping from the top of a
strictly-depth-decreasing stack with condition `depth ≥ level + 1` removes
exactly the entries of depth `≥ level + 1`, and the remaining top (the
chosen parent) is the deepest surviving entry, i.e. the nearest ancestor of
depth `< level + 1`; on the claim's concrete shape, the entry indented
`"│   ├── "` lands under the depth-1 ancestor `a` although the deeper `b`
was pushed in between. -/
theorem c4_depth_and_parent :
    (∀ l : List Char, lineLevel l = (l.takeWhile isIndentChar).length / 4)
    ∧ (∀ (st : List (Nat × List String)) (lvl : Nat),
        st.Pairwise (fun a b => b.1 < a.1) →
        popStack lvl st = st.filter (fun e => decide (e.1 < lvl + 1)) ∧
        ∀ e ∈ st, e.1 < lvl + 1 → ∀ q ∈ (popStack lvl st).head?, e.1 ≤ q.1)
    ∧ parse_tree "root/\n├── a/\n│   ├── b/\n│   │   └── c\n│   ├── d" =
        .cons "root" (.container (.cons "a" (.container
          (.cons "b" (.container (.cons "c" .leaf .nil)) (.cons "d" .leaf .nil)))
          .nil)) .nil :=
  ⟨fun _ => rfl, fun st lvl hp => popStack_filter lvl st hp, rfl⟩

/-- C4 witness: concrete pop on a stack holding a deeper sibling. -/
theorem c4_witness :
    popStack 1 [(2, ["a", "b"]), (1, ["a"]), (0, [])] = [(1, ["a"]), (0, [])] := by
  have h := (c4_depth_and_parent.2.1 [(2, ["a", "b"]), (1, ["a"]), (0, [])] 1
    (by simp [List.pairwise_cons])).1
  rw [h]
  rfl

/-- C5 counterexample: on the input `"/a/"` the code takes `"a"` as the root
name (Python `strip("/")` removes the leading slash as well), while the
claim predicts `"/a"` (only a trailing slash removed). -/
theorem c5_counterexample :
    keysN (parse_tree "/a/") = ["a"] ∧ specRootName "/a/" = "/a" ∧
      ("a" : String) ≠ "/a" := by
  refine ⟨rfl, rfl, ?_⟩
  decide

/-- C5 as amended: the root of the parsed structure is the trimmed first
non-blank line with every leading and trailing `'/'` removed, and it is
the single top-level key. -/
theorem c5_root_name (s : String) (l0 : List Char) (rest : List (List Char))
    (h : (splitlines s).filter (fun l => !(pyStrip l).isEmpty) = l0 :: rest) :
    keysN (parse_tree s) = [String.mk (stripSlash (pyStrip (pyRstrip l0)))] := by
  unfold parse_tree
  rw [h]
  simp [keysN]

/-- C5 witness: the amended statement at the concrete input `"/a/"`. -/
theorem c5_witness :
    keysN (parse_tree "/a/") = [String.mk (stripSlash (pyStrip (pyRstrip "/a/".data)))] :=
  c5_root_name "/a/" "/a/".data [] rfl

/-- C6: input with no non-blank line parses (without raising) to the empty
structure, and materializing the empty structure performs no filesystem
operation (the target is returned unchanged, with no error). -/
theorem c6_empty_input :
    (∀ s : String, (splitlines s).filter (fun l => !(pyStrip l).isEmpty) = [] →
      parse_tree s = .nil)
    ∧ (∀ (cf : Bool) (fs : FSMap), create_structure cf .nil fs = .ok fs) := by
  constructor
  · intro s h
    unfold parse_tree
    rw [h]
    rfl
  · intro cf fs
    rfl

/-- C6 witness: a whitespace-only input. -/
theorem c6_witness :
    parse_tree "\n   \n" = .nil ∧ create_structure true .nil .nil = .ok .nil :=
  ⟨c6_empty_input.1 "\n   \n" rfl, c6_empty_input.2 true .nil⟩

/-- C7: snapshotting a nonexistent path returns the empty Container
(returning, not raising), and snapshotting an existing path returns a
structure whose single top-level key is the base name of the path. -/
theorem c7_snapshotter :
    (∀ (w : FS) (p : List String), resolve w p = none →
      build_actual_tree w p = .container .nil)
    ∧ (∀ (w : FS) (p : List String) (f : FS), resolve w p = some f →
        keysOfNode (build_actual_tree w p) = [basename p]) := by
  constructor
  · intro w p h
    simp [build_actual_tree, h]
  · intro w p f h
    cases f with
    | file c => simp [build_actual_tree, h, keysOfNode, keysN]
    | dir es => simp [build_actual_tree, h, keysOfNode, keysN]

/-- C7 witness: a world with a single file `a`; the path `b` is missing and
the path `a` exists. -/
theorem c7_witness :
    build_actual_tree (.dir (.cons "a" (.file "") .nil)) ["b"] = .container .nil ∧
      keysOfNode (build_actual_tree (.dir (.cons "a" (.file "") .nil)) ["a"]) = ["a"] :=
  ⟨c7_snapshotter.1 (.dir (.cons "a" (.file "") .nil)) ["b"] rfl,
    c7_snapshotter.2 (.dir (.cons "a" (.file "") .nil)) ["a"] (.file "") rfl⟩

/-- C8: Python dict assignment makes the last sibling line win: after
`parent[name] = v` the lookup yields `v`, keys stay duplicate-free (so there
is exactly one child under the name), and concretely a later folder line
replaces a leaf by a fresh empty container and a later file line replaces a
container by a leaf. -/
theorem c8_last_write_wins :
    (∀ (m : NodeMap) (k : String) (v : Node), lookupN k (insertD k v m) = some v)
    ∧ (∀ (m : NodeMap) (k : String) (v : Node),
        (keysN m).Nodup → (keysN (insertD k v m)).Nodup)
    ∧ parse_tree "r/\n├── a\n├── a/" =
        .cons "r" (.container (.cons "a" (.container .nil) .nil)) .nil
    ∧ parse_tree "r/\n├── a/\n├── a" =
        .cons "r" (.container (.cons "a" .leaf .nil)) .nil := by
  refine ⟨lookupN_insertD_self, ?_, rfl, rfl⟩
  intro m k v h
  rw [keysN_insertD]
  by_cases hc : containsN k m = true
  · simpa [hc] using h
  · have hk : k ∉ keysN m := fun hm => hc ((containsN_iff_mem k m).mpr hm)
    simp [hc, List.nodup_append, h, hk]

/-- C8 witness: overwriting the only binding of a one-entry dict keeps the
key set duplicate-free. -/
theorem c8_witness :
    (keysN (NodeMap.cons "x" .leaf .nil)).Nodup ∧
      (keysN (insertD "x" (.container .nil) (.cons "x" .leaf .nil))).Nodup :=
  ⟨by simp [keysN],
    c8_last_write_wins.2.1 (.cons "x" .leaf .nil) "x" (.container .nil) (by simp [keysN])⟩

theorem lookupF_appendF_ne : ∀ (fs : FSMap) (j k : String) (v : FS), j ≠ k →
    lookupF j (appendF k v fs) = lookupF j fs
  | .nil, j, k, v, h => by simp [appendF, lookupF, Ne.symm h]
  | .cons a w r, j, k, v, h => by
    by_cases ha : a = j
    · simp [appendF, lookupF, ha]
    · simp [appendF, lookupF, ha, lookupF_appendF_ne r j k v h]

theorem lookupF_appendF_self : ∀ (fs : FSMap) (k : String) (v : FS),
    containsF k fs = false → lookupF k (appendF k v fs) = some v
  | .nil, k, v, _ => by simp [appendF, lookupF]
  | .cons a w r, k, v, h => by
    simp only [containsF, Bool.or_eq_false_iff, decide_eq_false_iff_not] at h
    simp [appendF, lookupF, h.1, lookupF_appendF_self r k v h.2]

theorem lookupF_updateF_ne : ∀ (fs : FSMap) (j k : String) (v : FS), j ≠ k →
    lookupF j (updateF k v fs) = lookupF j fs
  | .nil, j, k, v, h => by simp [updateF]
  | .cons a w r, j, k, v, h => by
    by_cases hk : a = k
    · have ha : ¬ a = j := fun hh => h (hh.symm.trans hk)
      simp only [updateF, if_pos hk, lookupF, if_neg ha]
    · simp only [updateF, if_neg hk]
      by_cases ha : a = j
      · simp only [lookupF, if_pos ha]
      · simp only [lookupF, if_neg ha, lookupF_updateF_ne r j k v h]

theorem lookupF_updateF_self : ∀ (fs : FSMap) (k : String) (v : FS),
    containsF k fs = true → lookupF k (updateF k v fs) = some v
  | .nil, k, v, h => by simp [containsF] at h
  | .cons a w r, k, v, h => by
    by_cases hk : a = k
    · simp [updateF, lookupF, hk]
    · simp only [containsF, Bool.or_eq_true, decide_eq_true_eq] at h
      rcases h with h | h
      · exact absurd h hk
      · simp [updateF, lookupF, hk, lookupF_updateF_self r k v h]

theorem updateF_eq_self : ∀ (fs : FSMap) (k : String) (v : FS),
    lookupF k fs = some v → updateF k v fs = fs
  | .nil, k, v, h => by simp [lookupF] at h
  | .cons a w r, k, v, h => by
    by_cases hk : a = k
    · unfold lookupF at h
      rw [if_pos hk] at h
      injection h with hv
      unfold updateF
      rw [if_pos hk, hv]
    · unfold lookupF at h
      rw [if_neg hk] at h
      unfold updateF
      rw [if_neg hk, updateF_eq_self r k v h]

theorem containsF_eq_isSome : ∀ (fs : FSMap) (k : String),
    containsF k fs = (lookupF k fs).isSome
  | .nil, k => by simp [containsF, lookupF]
  | .cons a w r, k => by
    by_cases hk : a = k
    · simp [containsF, lookupF, hk]
    · simp [containsF, lookupF, hk, containsF_eq_isSome r k]

theorem lookupF_none_of_contains_false (fs : FSMap) (k : String)
    (h : containsF k fs = false) : lookupF k fs = none := by
  rw [containsF_eq_isSome] at h
  exact Option.not_isSome_iff_eq_none.mp (by simp [h])

theorem contains_false_of_lookupF_none (fs : FSMap) (k : String)
    (h : lookupF k fs = none) : containsF k fs = false := by
  rw [containsF_eq_isSome, h]
  rfl

theorem contains_true_of_lookupF_some (fs : FSMap) (k : String) (v : FS)
    (h : lookupF k fs = some v) : containsF k fs = true := by
  rw [containsF_eq_isSome, h]
  rfl

theorem containsF_catF : ∀ (a b : FSMap) (k : String),
    containsF k (catF a b) = (containsF k a || containsF k b)
  | .nil, b, k => by simp [catF, containsF]
  | .cons x w r, b, k => by
    simp [catF, containsF, containsF_catF r b k, Bool.or_assoc]

theorem appendF_eq_catF : ∀ (fs : FSMap) (k : String) (v : FS),
    appendF k v fs = catF fs (.cons k v .nil)
  | .nil, k, v => rfl
  | .cons a w r, k, v => by
    simp [appendF, catF, appendF_eq_catF r k v]

theorem catF_nil_right : ∀ (fs : FSMap), catF fs .nil = fs
  | .nil => rfl
  | .cons a w r => by simp [catF, catF_nil_right r]

theorem catF_assoc : ∀ (a b c : FSMap), catF (catF a b) c = catF a (catF b c)
  | .nil, b, c => rfl
  | .cons x w r, b, c => by simp [catF, catF_assoc r b c]

theorem freshItem_cat : ∀ (cf : Bool) (k : String) (v : Node) (X : FSMap),
    freshItem cf k v X = catF (freshItem cf k v .nil) X
  | cf, k, .leaf, X => by
    cases cf <;> simp [freshItem, catF]
  | cf, k, .container ch, X => by
    simp [freshItem, catF]

theorem containsF_freshItem_nil : ∀ (cf : Bool) (k : String) (v : Node) (j : String),
    containsF j (freshItem cf k v .nil) = true → k = j
  | cf, k, .leaf, j => by
    cases cf <;> simp [freshItem, containsF]
  | cf, k, .container ch, j => by
    simp [freshItem, containsF]

mutual

theorem mat_untouched : ∀ (cf : Bool) (s : NodeMap) (fs fs' : FSMap),
    create_structure cf s fs = .ok fs' → ∀ j, containsN j s = false →
    lookupF j fs' = lookupF j fs
  | cf, .nil, fs, fs', h, j, hj => by
    simp only [create_structure] at h
    cases h
    rfl
  | cf, .cons k v rest, fs, fs', h, j, hj => by
    simp only [create_structure] at h
    simp only [containsN, Bool.or_eq_false_iff, decide_eq_false_iff_not] at hj
    cases hi : createItem cf k v fs with
    | error e =>
      rw [hi] at h
      exact Except.noConfusion h
    | ok fs1 =>
      rw [hi] at h
      rw [mat_untouched cf rest fs1 fs' h j hj.2,
        item_untouched cf k v fs fs1 hi j (fun hh => hj.1 hh.symm)]

theorem item_untouched : ∀ (cf : Bool) (k : String) (v : Node) (fs fs' : FSMap),
    createItem cf k v fs = .ok fs' → ∀ j, j ≠ k → lookupF j fs' = lookupF j fs
  | cf, k, .leaf, fs, fs', h, j, hj => by
    simp only [createItem] at h
    cases cf with
    | false =>
      simp only [Bool.false_eq_true, if_false] at h
      cases h
      rfl
    | true =>
      simp only [if_true] at h
      by_cases hc : containsF k fs = true
      · rw [if_pos hc] at h
        cases h
        rfl
      · rw [if_neg hc] at h
        cases h
        exact lookupF_appendF_ne fs j k (.file "") hj
  | cf, k, .container ch, fs, fs', h, j, hj => by
    simp only [createItem] at h
    split at h
    · exact Except.noConfusion h
    · split at h
      · exact Except.noConfusion h
      · next sub1 hre =>
          cases h
          exact lookupF_updateF_ne fs j k (.dir sub1) hj
    · split at h
      · exact Except.noConfusion h
      · next sub1 hre =>
          cases h
          exact lookupF_appendF_ne fs j k (.dir sub1) hj

end

theorem wfFS_cons_iff (a : String) (w : FS) (r : FSMap) :
    wfFS (.cons a w r) = true ↔
      containsF a r = false ∧ wfEntry w = true ∧ wfFS r = true := by
  simp [wfFS, Bool.and_eq_true, Bool.not_eq_true', and_assoc]

theorem wfMap_cons_iff (k : String) (v : Node) (r : NodeMap) :
    wfMap (.cons k v r) = true ↔
      containsN k r = false ∧ wfNode v = true ∧ wfMap r = true := by
  simp [wfMap, Bool.and_eq_true, Bool.not_eq_true', and_assoc]

theorem containsF_updateF : ∀ (fs : FSMap) (k : String) (v : FS) (j : String),
    containsF j (updateF k v fs) = containsF j fs
  | .nil, k, v, j => rfl
  | .cons a w r, k, v, j => by
    by_cases hk : a = k
    · simp only [updateF, if_pos hk, containsF]
    · simp only [updateF, if_neg hk, containsF, containsF_updateF r k v j]

theorem wfFS_lookup : ∀ (fs : FSMap) (k : String) (f : FS),
    wfFS fs = true → lookupF k fs = some f → wfEntry f = true
  | .nil, k, f, hw, h => by simp [lookupF] at h
  | .cons a w r, k, f, hw, h => by
    rw [wfFS_cons_iff] at hw
    by_cases hk : a = k
    · unfold lookupF at h
      rw [if_pos hk] at h
      injection h with hv
      rw [← hv]
      exact hw.2.1
    · unfold lookupF at h
      rw [if_neg hk] at h
      exact wfFS_lookup r k f hw.2.2 h

theorem wfFS_updateF : ∀ (fs : FSMap) (k : String) (v : FS),
    wfFS fs = true → wfEntry v = true → wfFS (updateF k v fs) = true
  | .nil, k, v, hw, hv => rfl
  | .cons a w r, k, v, hw, hv => by
    rw [wfFS_cons_iff] at hw
    by_cases hk : a = k
    · unfold updateF
      rw [if_pos hk, wfFS_cons_iff]
      exact ⟨hw.1, hv, hw.2.2⟩
    · unfold updateF
      rw [if_neg hk, wfFS_cons_iff]
      refine ⟨?_, hw.2.1, wfFS_updateF r k v hw.2.2 hv⟩
      rw [containsF_updateF r k v a]
      exact hw.1

theorem containsF_appendF : ∀ (fs : FSMap) (k : String) (v : FS) (j : String),
    containsF j (appendF k v fs) = (containsF j fs || decide (k = j))
  | .nil, k, v, j => by simp [appendF, containsF]
  | .cons a w r, k, v, j => by
    simp only [appendF, containsF, containsF_appendF r k v j, Bool.or_assoc]

theorem wfFS_appendF : ∀ (fs : FSMap) (k : String) (v : FS),
    wfFS fs = true → containsF k fs = false → wfEntry v = true →
    wfFS (appendF k v fs) = true
  | .nil, k, v, hw, hc, hv => by
    simp [appendF, wfFS, containsF, hv]
  | .cons a w r, k, v, hw, hc, hv => by
    rw [wfFS_cons_iff] at hw
    simp only [containsF, Bool.or_eq_false_iff, decide_eq_false_iff_not] at hc
    simp only [appendF]
    rw [wfFS_cons_iff]
    refine ⟨?_, hw.2.1, wfFS_appendF r k v hw.2.2 hc.2 hv⟩
    rw [containsF_appendF r k v a, hw.1]
    simpa using fun hh => hc.1 hh.symm

mutual

theorem mat_wf : ∀ (cf : Bool) (s : NodeMap) (fs fs' : FSMap),
    wfFS fs = true → create_structure cf s fs = .ok fs' → wfFS fs' = true
  | cf, .nil, fs, fs', hw, h => by
    simp only [create_structure] at h
    cases h
    exact hw
  | cf, .cons k v rest, fs, fs', hw, h => by
    simp only [create_structure] at h
    cases hi : createItem cf k v fs with
    | error e => rw [hi] at h; exact Except.noConfusion h
    | ok fs1 =>
      rw [hi] at h
      exact mat_wf cf rest fs1 fs' (item_wf cf k v fs fs1 hw hi) h

theorem item_wf : ∀ (cf : Bool) (k : String) (v : Node) (fs fs' : FSMap),
    wfFS fs = true → createItem cf k v fs = .ok fs' → wfFS fs' = true
  | cf, k, .leaf, fs, fs', hw, h => by
    simp only [createItem] at h
    cases cf with
    | false =>
      have h' : Except.ok (ε := Unit) fs = .ok fs' := h
      cases h'
      exact hw
    | true =>
      simp only [if_true] at h
      by_cases hc : containsF k fs = true
      · rw [if_pos hc] at h
        cases h
        exact hw
      · rw [if_neg hc] at h
        cases h
        exact wfFS_appendF fs k (.file "") hw (by simpa using hc) rfl
  | cf, k, .container ch, fs, fs', hw, h => by
    simp only [createItem] at h
    split at h
    · exact Except.noConfusion h
    · next sub heq =>
        split at h
        · exact Except.noConfusion h
        · next sub1 hre =>
            cases h
            have hsub : wfFS sub = true := wfFS_lookup fs k (.dir sub) hw heq
            exact wfFS_updateF fs k (.dir sub1) hw (mat_wf cf ch sub sub1 hsub hre)
    · next heq =>
        split at h
        · exact Except.noConfusion h
        · next sub1 hre =>
            cases h
            have hc : containsF k fs = false := contains_false_of_lookupF_none fs k heq
            exact wfFS_appendF fs k (.dir sub1) hw hc (mat_wf cf ch .nil sub1 rfl hre)

end

theorem createItem_container_fix (cf : Bool) (k : String) (ch : NodeMap)
    (fsX sub1 : FSMap) (hXv : lookupF k fsX = some (.dir sub1))
    (rec1 : create_structure cf ch sub1 = .ok sub1) :
    createItem cf k (.container ch) fsX = .ok fsX := by
  simp only [createItem]
  split
  · next a heq =>
      rw [hXv] at heq
      exact absurd heq (by simp)
  · next sub heq =>
      rw [hXv] at heq
      injection heq with h2
      injection h2 with h3
      subst h3
      split
      · next e hre =>
          rw [rec1] at hre
          exact Except.noConfusion hre
      · next sub2 hre =>
          rw [rec1] at hre
          injection hre with h4
          rw [← h4, updateF_eq_self fsX k (.dir sub1) hXv]
  · next heq =>
      rw [hXv] at heq
      exact Option.noConfusion heq

mutual

theorem mat_idem : ∀ (cf : Bool) (s : NodeMap) (fs fs' : FSMap),
    wfMap s = true → wfFS fs = true → create_structure cf s fs = .ok fs' →
    create_structure cf s fs' = .ok fs'
  | cf, .nil, fs, fs', hs, hw, h => by
    simp only [create_structure]
  | cf, .cons k v rest, fs, fs', hs, hw, h => by
    simp only [create_structure] at h
    rw [wfMap_cons_iff] at hs
    cases hi : createItem cf k v fs with
    | error e => rw [hi] at h; exact Except.noConfusion h
    | ok fs1 =>
      rw [hi] at h
      have hkeep : lookupF k fs' = lookupF k fs1 :=
        mat_untouched cf rest fs1 fs' h k hs.1
      have hitem : createItem cf k v fs' = .ok fs' :=
        item_idem cf k v fs fs1 hs.2.1 hw hi fs' hkeep
      have hrest : create_structure cf rest fs' = .ok fs' :=
        mat_idem cf rest fs1 fs' hs.2.2 (item_wf cf k v fs fs1 hw hi) h
      simp only [create_structure, hitem]
      exact hrest

theorem item_idem : ∀ (cf : Bool) (k : String) (v : Node) (fs fs1 : FSMap),
    wfNode v = true → wfFS fs = true → createItem cf k v fs = .ok fs1 →
    ∀ fsX, lookupF k fsX = lookupF k fs1 → createItem cf k v fsX = .ok fsX
  | cf, k, .leaf, fs, fs1, hv, hw, h, fsX, hX => by
    simp only [createItem] at h ⊢
    cases cf with
    | false => rfl
    | true =>
      simp only [if_true] at h ⊢
      have hcX : containsF k fsX = true := by
        by_cases hc : containsF k fs = true
        · rw [if_pos hc] at h
          cases h
          rw [containsF_eq_isSome, hX, ← containsF_eq_isSome]
          exact hc
        · rw [if_neg hc] at h
          cases h
          rw [containsF_eq_isSome, hX,
            lookupF_appendF_self fs k (.file "") (by simpa using hc)]
          rfl
      rw [if_pos hcX]
  | cf, k, .container ch, fs, fs1, hv, hw, h, fsX, hX => by
    simp only [createItem] at h
    split at h
    · exact Except.noConfusion h
    · next sub heq =>
        split at h
        · exact Except.noConfusion h
        · next sub1 hre =>
            cases h
            have hXv : lookupF k fsX = some (.dir sub1) := by
              rw [hX, lookupF_updateF_self fs k (.dir sub1)
                (contains_true_of_lookupF_some fs k (.dir sub) heq)]
            have hsub : wfFS sub = true := wfFS_lookup fs k (.dir sub) hw heq
            exact createItem_container_fix cf k ch fsX sub1 hXv
              (mat_idem cf ch sub sub1 hv hsub hre)
    · next heq =>
        split at h
        · exact Except.noConfusion h
        · next sub1 hre =>
            cases h
            have hc : containsF k fs = false := contains_false_of_lookupF_none fs k heq
            have hXv : lookupF k fsX = some (.dir sub1) := by
              rw [hX, lookupF_appendF_self fs k (.dir sub1) hc]
            exact createItem_container_fix cf k ch fsX sub1 hXv
              (mat_idem cf ch .nil sub1 hv rfl hre)

end

/-- C3: re-running the Materializer with the same structure on the outcome
of a successful run returns that outcome unchanged and without error: no
file content is altered (the resulting filesystem, contents included, is
exactly the one the second run started from), pre-existing directories are
accepted, and existing files are never truncated or overwritten. -/
theorem c3_idempotent (cf : Bool) (s : NodeMap) (fs fs' : FSMap)
    (h1 : wfMap s = true) (h2 : wfFS fs = true)
    (h3 : create_structure cf s fs = .ok fs') :
    create_structure cf s fs' = .ok fs' :=
  mat_idem cf s fs fs' h1 h2 h3

/-- C3 witness: a structure with one folder and one file, materialized into
an empty target and then re-materialized. -/
theorem c3_witness :
    wfMap (.cons "a" (.container .nil) (.cons "b" .leaf .nil)) = true ∧
    wfFS .nil = true ∧
    create_structure true (.cons "a" (.container .nil) (.cons "b" .leaf .nil)) .nil =
      .ok (.cons "a" (.dir .nil) (.cons "b" (.file "") .nil)) ∧
    create_structure true (.cons "a" (.container .nil) (.cons "b" .leaf .nil))
        (.cons "a" (.dir .nil) (.cons "b" (.file "") .nil)) =
      .ok (.cons "a" (.dir .nil) (.cons "b" (.file "") .nil)) :=
  ⟨rfl, rfl, rfl,
    c3_idempotent true (.cons "a" (.container .nil) (.cons "b" .leaf .nil)) .nil
      (.cons "a" (.dir .nil) (.cons "b" (.file "") .nil)) rfl rfl rfl⟩

mutual

theorem mat_fresh : ∀ (cf : Bool) (s : NodeMap) (fs : FSMap),
    wfMap s = true → (∀ j, containsN j s = true → containsF j fs = false) →
    create_structure cf s fs = .ok (catF fs (freshMat cf s))
  | cf, .nil, fs, hs, hd => by
    show Except.ok fs = .ok (catF fs (freshMat cf .nil))
    rw [show catF fs (freshMat cf .nil) = fs from catF_nil_right fs]
  | cf, .cons k v rest, fs, hs, hd => by
    rw [wfMap_cons_iff] at hs
    have hdk : containsF k fs = false := hd k (by simp [containsN])
    have hi := item_fresh cf k v fs hs.2.1 hdk
    have hd' : ∀ j, containsN j rest = true →
        containsF j (catF fs (freshItem cf k v .nil)) = false := by
      intro j hj
      rw [containsF_catF]
      have h1 : containsF j fs = false := hd j (by simp [containsN, hj])
      have h2 : containsF j (freshItem cf k v .nil) = false := by
        by_cases hzz : containsF j (freshItem cf k v .nil) = true
        · have hkj := containsF_freshItem_nil cf k v j hzz
          have hkk : containsN k rest = true := by rw [hkj]; exact hj
          rw [hs.1] at hkk
          exact Bool.noConfusion hkk
        · simpa using hzz
      rw [h1, h2]
      rfl
    have hrest := mat_fresh cf rest (catF fs (freshItem cf k v .nil)) hs.2.2 hd'
    have hfm : freshMat cf (.cons k v rest) =
        catF (freshItem cf k v .nil) (freshMat cf rest) := by
      simp only [freshMat]
      exact freshItem_cat cf k v (freshMat cf rest)
    simp only [create_structure]
    rw [hi]
    show create_structure cf rest (catF fs (freshItem cf k v .nil)) =
      .ok (catF fs (freshMat cf (.cons k v rest)))
    rw [hrest, catF_assoc, hfm]

theorem item_fresh : ∀ (cf : Bool) (k : String) (v : Node) (fs : FSMap),
    wfNode v = true → containsF k fs = false →
    createItem cf k v fs = .ok (catF fs (freshItem cf k v .nil))
  | cf, k, .leaf, fs, hv, hc => by
    cases cf with
    | false =>
      show Except.ok fs = .ok (catF fs (freshItem false k .leaf .nil))
      rw [show catF fs (freshItem false k .leaf .nil) = fs from catF_nil_right fs]
    | true =>
      simp only [createItem, if_true]
      rw [if_neg (by simp [hc] : ¬ containsF k fs = true), appendF_eq_catF]
      rfl
  | cf, k, .container ch, fs, hv, hc => by
    have hl : lookupF k fs = none := lookupF_none_of_contains_false fs k hc
    have hch : create_structure cf ch .nil = .ok (freshMat cf ch) :=
      mat_fresh cf ch .nil hv (fun j _ => rfl)
    simp only [createItem]
    split
    · next a heq =>
        rw [hl] at heq
        exact Option.noConfusion heq
    · next sub heq =>
        rw [hl] at heq
        exact Option.noConfusion heq
    · next heq =>
        split
        · next e hre =>
            rw [hch] at hre
            exact Except.noConfusion hre
        · next sub1 hre =>
            rw [hch] at hre
            injection hre with h4
            rw [← h4, appendF_eq_catF]
            rfl

end

mutual

theorem snapAll_freshMat : ∀ (s : NodeMap), snapAll (freshMat true s) = mapSnap s
  | .nil => rfl
  | .cons k v r => by
    simp only [freshMat, mapSnap]
    rw [snapAll_freshItem k v (freshMat true r), snapAll_freshMat r]

theorem snapAll_freshItem : ∀ (k : String) (v : Node) (X : FSMap),
    snapAll (freshItem true k v X) = (k, snapTrans v) :: snapAll X
  | k, .leaf, X => by simp [freshItem, snapAll, snapEntry, snapTrans]
  | k, .container ch, X => by
    simp only [freshItem, snapAll, snapEntry, snapTrans]
    rw [snapAll_freshMat ch]

end

theorem toListN_listToMapN : ∀ (l : List (String × Node)), toListN (listToMapN l) = l
  | [] => rfl
  | (k, v) :: r => by simp [listToMapN, toListN, toListN_listToMapN r]

theorem mem_insertSortedP : ∀ (x y : String × Node) (l : List (String × Node)),
    y ∈ insertSortedP x l ↔ y = x ∨ y ∈ l
  | x, y, [] => by simp [insertSortedP]
  | x, y, z :: t => by
    by_cases h : z.1 ≤ x.1
    · simp only [insertSortedP, if_pos h, List.mem_cons, mem_insertSortedP x y t]
      tauto
    · simp only [insertSortedP, if_neg h, List.mem_cons]

theorem mem_sortP : ∀ (l : List (String × Node)) (y : String × Node),
    y ∈ sortP l ↔ y ∈ l
  | [], y => by simp [sortP]
  | x :: t, y => by
    simp only [sortP, mem_insertSortedP, mem_sortP t y, List.mem_cons]

theorem mem_dirMapOf (l : List (String × Node)) (y : String × Node) :
    y ∈ toListN (dirMapOf l) ↔ y ∈ l := by
  unfold dirMapOf
  rw [toListN_listToMapN, List.mem_append, mem_sortP, mem_sortP,
    List.mem_filter, List.mem_filter]
  by_cases hq : isContainerN y.2 = true
  · simp [hq]
  · simp [hq]

theorem containsN_of_lookupN : ∀ (m : NodeMap) (k : String) (v : Node),
    lookupN k m = some v → containsN k m = true
  | .nil, k, v, h => by simp [lookupN] at h
  | .cons a w r, k, v, h => by
    by_cases hk : a = k
    · simp [containsN, hk]
    · unfold lookupN at h
      rw [if_neg hk] at h
      simp [containsN, hk, containsN_of_lookupN r k v h]

theorem mem_toListN_contains : ∀ (m : NodeMap) (k : String) (v : Node),
    (k, v) ∈ toListN m → containsN k m = true
  | .nil, k, v, h => by simp [toListN] at h
  | .cons a w r, k, v, h => by
    simp only [toListN, List.mem_cons] at h
    rcases h with h | h
    · rw [Prod.mk.injEq] at h
      simp [containsN, h.1]
    · simp [containsN, mem_toListN_contains r k v h]

theorem mem_keys_exists : ∀ (m : NodeMap) (k : String),
    k ∈ keysN m → ∃ w, (k, w) ∈ toListN m
  | .nil, k, h => by simp [keysN] at h
  | .cons a w r, k, h => by
    simp only [keysN, List.mem_cons] at h
    rcases h with rfl | h
    · exact ⟨w, by simp [toListN]⟩
    · obtain ⟨w', hw'⟩ := mem_keys_exists r k h
      exact ⟨w', by simp [toListN, hw']⟩

theorem mem_toListN_keys : ∀ (m : NodeMap) (k : String) (v : Node),
    (k, v) ∈ toListN m → k ∈ keysN m
  | .nil, k, v, h => by simp [toListN] at h
  | .cons a w r, k, v, h => by
    simp only [toListN, List.mem_cons] at h
    rcases h with h | h
    · rw [Prod.mk.injEq] at h
      simp [keysN, h.1]
    · simp [keysN, mem_toListN_keys r k v h]

theorem wfMap_mem : ∀ (m : NodeMap) (k : String) (v : Node),
    wfMap m = true → (k, v) ∈ toListN m → wfNode v = true
  | .nil, k, v, hw, h => by simp [toListN] at h
  | .cons a w r, k, v, hw, h => by
    rw [wfMap_cons_iff] at hw
    simp only [toListN, List.mem_cons] at h
    rcases h with h | h
    · rw [Prod.mk.injEq] at h
      rw [h.2]
      exact hw.2.1
    · exact wfMap_mem r k v hw.2.2 h

theorem mem_mapSnap_elim : ∀ (s : NodeMap) (k : String) (v : Node),
    (k, v) ∈ mapSnap s → ∃ w, (k, w) ∈ toListN s ∧ v = snapTrans w
  | .nil, k, v, h => by simp [mapSnap] at h
  | .cons a w r, k, v, h => by
    simp only [mapSnap, List.mem_cons] at h
    rcases h with h | h
    · rw [Prod.mk.injEq] at h
      exact ⟨w, by simp [toListN, h.1], h.2⟩
    · obtain ⟨w', h1, h2⟩ := mem_mapSnap_elim r k v h
      exact ⟨w', by simp [toListN, h1], h2⟩

theorem mem_mapSnap_intro : ∀ (s : NodeMap) (k : String) (w : Node),
    (k, w) ∈ toListN s → (k, snapTrans w) ∈ mapSnap s
  | .nil, k, w, h => by simp [toListN] at h
  | .cons a v r, k, w, h => by
    simp only [toListN, List.mem_cons] at h
    simp only [mapSnap, List.mem_cons]
    rcases h with h | h
    · rw [Prod.mk.injEq] at h
      left
      rw [Prod.mk.injEq]
      exact ⟨h.1, by rw [h.2]⟩
    · right
      exact mem_mapSnap_intro r k w h

theorem subMap_intro : ∀ (a b : NodeMap),
    (∀ k v, (k, v) ∈ toListN a →
      ∃ w, lookupN k b = some w ∧ equivNode v w = true) →
    subMap a b = true
  | .nil, b, h => rfl
  | .cons k v r, b, h => by
    obtain ⟨w, hw, he⟩ := h k v (by simp [toListN])
    simp only [subMap, hw, he, Bool.true_and]
    exact subMap_intro r b (fun k' v' h' => h k' v' (by simp [toListN, h']))

mutual

theorem equiv_snapTrans : ∀ (w : Node), wfNode w = true →
    equivNode (snapTrans w) w = true
  | .leaf, hw => rfl
  | .container ch, hw => by
    simp only [snapTrans, equivNode, Bool.and_eq_true]
    constructor
    · apply subMap_intro
      intro k v hm
      exact mapSnap_entries ch hw k v ((mem_dirMapOf (mapSnap ch) (k, v)).mp hm)
    · rw [List.all_eq_true]
      intro k hk
      obtain ⟨w', hw'⟩ := mem_keys_exists ch k hk
      have h2 : (k, snapTrans w') ∈ toListN (dirMapOf (mapSnap ch)) :=
        (mem_dirMapOf _ _).mpr (mem_mapSnap_intro ch k w' hw')
      have h3 : k ∈ keysN (dirMapOf (mapSnap ch)) := mem_toListN_keys _ k _ h2
      simpa using h3

theorem mapSnap_entries : ∀ (s : NodeMap), wfMap s = true →
    ∀ k v, (k, v) ∈ mapSnap s →
    ∃ w, lookupN k s = some w ∧ equivNode v w = true
  | .nil, hw, k, v, h => by simp [mapSnap] at h
  | .cons a w r, hw, k, v, h => by
    rw [wfMap_cons_iff] at hw
    simp only [mapSnap, List.mem_cons] at h
    rcases h with h | h
    · rw [Prod.mk.injEq] at h
      refine ⟨w, ?_, ?_⟩
      · unfold lookupN
        rw [if_pos h.1.symm]
      · rw [h.2]
        exact equiv_snapTrans w hw.2.1
    · obtain ⟨w', h1, h2⟩ := mapSnap_entries r hw.2.2 k v h
      have hak : ¬ a = k := by
        intro hh
        have hc := containsN_of_lookupN r k w' h1
        subst hh
        rw [hw.1] at hc
        exact Bool.noConfusion hc
      refine ⟨w', ?_, h2⟩
      unfold lookupN
      rw [if_neg hak]
      exact h1

end

/-- C1: materialize a Baseline Structure (a single root Container) into an
empty target with file creation enabled, then snapshot the created root
directory; the snapshot agrees with the original structure in the set of
names and the Container/Leaf classification at every path (order of
listing and file content disregarded, as `equivNode` states). -/
theorem c1_round_trip (root : String) (ch : NodeMap) (fs' : FSMap)
    (hwf : wfMap (.cons root (.container ch) .nil) = true)
    (h : create_structure true (.cons root (.container ch) .nil) .nil = .ok fs') :
    equivNode (build_actual_tree (.dir fs') [root])
      (.container (.cons root (.container ch) .nil)) = true := by
  have hch : wfMap ch = true := by
    rw [wfMap_cons_iff] at hwf
    exact hwf.2.1
  have hfresh := mat_fresh true (.cons root (.container ch) .nil) .nil hwf
    (fun j _ => rfl)
  rw [h] at hfresh
  injection hfresh with hfs
  subst hfs
  have hlk : lookupF root (FSMap.cons root (.dir (freshMat true ch)) .nil) =
      some (.dir (freshMat true ch)) := by
    unfold lookupF
    rw [if_pos rfl]
  have hres : resolve (.dir (.cons root (.dir (freshMat true ch)) .nil)) [root] =
      some (.dir (freshMat true ch)) := by
    unfold resolve
    rw [hlk]
    rfl
  have hbat : build_actual_tree
      (.dir (.cons root (.dir (freshMat true ch)) .nil)) [root] =
      .container (.cons root
        (.container (dirMapOf (snapAll (freshMat true ch)))) .nil) := by
    unfold build_actual_tree
    rw [hres]
    rfl
  show equivNode
    (build_actual_tree (.dir (.cons root (.dir (freshMat true ch)) .nil)) [root])
    (.container (.cons root (.container ch) .nil)) = true
  rw [hbat, snapAll_freshMat ch]
  simp only [equivNode, Bool.and_eq_true]
  constructor
  · apply subMap_intro
    intro k v hm
    simp only [toListN, List.mem_cons, List.not_mem_nil, or_false] at hm
    rw [Prod.mk.injEq] at hm
    refine ⟨.container ch, ?_, ?_⟩
    · unfold lookupN
      rw [if_pos hm.1.symm]
    · rw [hm.2]
      exact equiv_snapTrans (.container ch) hch
  · rw [List.all_eq_true]
    intro k hk
    simp only [keysN, List.mem_cons, List.not_mem_nil, or_false] at hk
    subst hk
    simp [keysN]

/-- C1 witness: the spec's own example structure, materialized into an
empty target and snapshotted back. -/
theorem c1_witness :
    wfMap (.cons "project" (.container (.cons "src"
        (.container (.cons "main.py" .leaf .nil))
        (.cons "README.md" .leaf .nil))) .nil) = true ∧
    create_structure true (.cons "project" (.container (.cons "src"
        (.container (.cons "main.py" .leaf .nil))
        (.cons "README.md" .leaf .nil))) .nil) .nil =
      .ok (.cons "project" (.dir (.cons "src" (.dir (.cons "main.py" (.file "") .nil))
        (.cons "README.md" (.file "") .nil))) .nil) ∧
    equivNode
      (build_actual_tree (.dir (.cons "project" (.dir (.cons "src"
        (.dir (.cons "main.py" (.file "") .nil))
        (.cons "README.md" (.file "") .nil))) .nil)) ["project"])
      (.container (.cons "project" (.container (.cons "src"
        (.container (.cons "main.py" .leaf .nil))
        (.cons "README.md" .leaf .nil))) .nil)) = true :=
  ⟨rfl, rfl,
    c1_round_trip "project"
      (.cons "src" (.container (.cons "main.py" .leaf .nil))
        (.cons "README.md" .leaf .nil))
      (.cons "project" (.dir (.cons "src" (.dir (.cons "main.py" (.file "") .nil))
        (.cons "README.md" (.file "") .nil))) .nil) rfl rfl⟩

theorem isFileAtF_nil : ∀ (p : List String), isFileAtF .nil p = false
  | [] => rfl
  | k :: ps => by simp [isFileAtF, lookupF]

theorem isDirAtF_appendF_mono : ∀ (fs : FSMap) (k : String) (w : FS) (p : List String),
    containsF k fs = false → isDirAtF fs p = true → isDirAtF (appendF k w fs) p = true
  | fs, k, w, [], hc, hp => rfl
  | fs, k, w, j :: ps, hc, hp => by
    unfold isDirAtF at hp
    cases hl : lookupF j fs with
    | none =>
      rw [hl] at hp
      exact Bool.noConfusion hp
    | some f =>
      cases f with
      | file c =>
        rw [hl] at hp
        exact Bool.noConfusion hp
      | dir sub =>
        rw [hl] at hp
        have hjk : ¬ j = k := by
          intro hh
          subst hh
          rw [lookupF_none_of_contains_false fs j hc] at hl
          exact Option.noConfusion hl
        unfold isDirAtF
        rw [lookupF_appendF_ne fs j k w hjk, hl]
        exact hp

theorem isDirAtF_updateF_mono : ∀ (fs : FSMap) (k : String) (sub sub1 : FSMap)
    (p : List String),
    lookupF k fs = some (.dir sub) →
    (∀ q, isDirAtF sub q = true → isDirAtF sub1 q = true) →
    isDirAtF fs p = true → isDirAtF (updateF k (.dir sub1) fs) p = true
  | fs, k, sub, sub1, [], hlk, hmono, hp => rfl
  | fs, k, sub, sub1, j :: ps, hlk, hmono, hp => by
    unfold isDirAtF at hp ⊢
    by_cases hjk : j = k
    · subst hjk
      rw [lookupF_updateF_self fs j (.dir sub1)
        (contains_true_of_lookupF_some fs j (.dir sub) hlk)]
      rw [hlk] at hp
      cases ps with
      | nil => rfl
      | cons b bs => exact hmono (b :: bs) hp
    · rw [lookupF_updateF_ne fs j k (.dir sub1) hjk]
      exact hp

mutual

theorem mat_mono_dir : ∀ (cf : Bool) (s : NodeMap) (fs fs' : FSMap),
    create_structure cf s fs = .ok fs' → ∀ p,
    isDirAtF fs p = true → isDirAtF fs' p = true
  | cf, .nil, fs, fs', h, p, hp => by
    have h' : Except.ok (ε := Unit) fs = .ok fs' := h
    cases h'
    exact hp
  | cf, .cons k v rest, fs, fs', h, p, hp => by
    simp only [create_structure] at h
    cases hi : createItem cf k v fs with
    | error e => rw [hi] at h; exact Except.noConfusion h
    | ok fs1 =>
      rw [hi] at h
      exact mat_mono_dir cf rest fs1 fs' h p (item_mono_dir cf k v fs fs1 hi p hp)

theorem item_mono_dir : ∀ (cf : Bool) (k : String) (v : Node) (fs fs1 : FSMap),
    createItem cf k v fs = .ok fs1 → ∀ p,
    isDirAtF fs p = true → isDirAtF fs1 p = true
  | cf, k, .leaf, fs, fs1, h, p, hp => by
    simp only [createItem] at h
    cases cf with
    | false =>
      have h' : Except.ok (ε := Unit) fs = .ok fs1 := h
      cases h'
      exact hp
    | true =>
      simp only [if_true] at h
      by_cases hc : containsF k fs = true
      · rw [if_pos hc] at h
        cases h
        exact hp
      · rw [if_neg hc] at h
        cases h
        exact isDirAtF_appendF_mono fs k (.file "") p (by simpa using hc) hp
  | cf, k, .container ch, fs, fs1, h, p, hp => by
    simp only [createItem] at h
    split at h
    · exact Except.noConfusion h
    · next sub heq =>
        split at h
        · exact Except.noConfusion h
        · next sub1 hre =>
            cases h
            exact isDirAtF_updateF_mono fs k sub sub1 p heq
              (fun q => mat_mono_dir cf ch sub sub1 hre q) hp
    · next heq =>
        split at h
        · exact Except.noConfusion h
        · next sub1 hre =>
            cases h
            exact isDirAtF_appendF_mono fs k (.dir sub1) p
              (contains_false_of_lookupF_none fs k heq) hp

end

theorem isFileAtF_updateF_dir : ∀ (fs : FSMap) (k : String) (sub sub1 : FSMap)
    (p : List String),
    lookupF k fs = some (.dir sub) →
    (∀ q, isFileAtF sub1 q = isFileAtF sub q) →
    isFileAtF (updateF k (.dir sub1) fs) p = isFileAtF fs p
  | fs, k, sub, sub1, [], _, _ => rfl
  | fs, k, sub, sub1, j :: ps, hlk, hfiles => by
    unfold isFileAtF
    by_cases hjk : j = k
    · subst hjk
      rw [lookupF_updateF_self fs j (.dir sub1)
        (contains_true_of_lookupF_some fs j (.dir sub) hlk), hlk]
      cases ps with
      | nil => rfl
      | cons b bs => exact hfiles (b :: bs)
    · rw [lookupF_updateF_ne fs j k (.dir sub1) hjk]

theorem isFileAtF_appendF_fresh : ∀ (fs : FSMap) (k : String) (sub1 : FSMap)
    (p : List String),
    containsF k fs = false →
    (∀ q, isFileAtF sub1 q = false) →
    isFileAtF (appendF k (.dir sub1) fs) p = isFileAtF fs p
  | fs, k, sub1, [], _, _ => rfl
  | fs, k, sub1, j :: ps, hc, hnof => by
    unfold isFileAtF
    by_cases hjk : j = k
    · subst hjk
      rw [lookupF_appendF_self fs j (.dir sub1) hc,
        lookupF_none_of_contains_false fs j hc]
      cases ps with
      | nil => rfl
      | cons b bs => exact hnof (b :: bs)
    · rw [lookupF_appendF_ne fs j k (.dir sub1) hjk]

mutual

theorem mat_files : ∀ (s : NodeMap) (fs fs' : FSMap),
    create_structure false s fs = .ok fs' → ∀ p, isFileAtF fs' p = isFileAtF fs p
  | .nil, fs, fs', h, p => by
    have h' : Except.ok (ε := Unit) fs = .ok fs' := h
    cases h'
    rfl
  | .cons k v rest, fs, fs', h, p => by
    simp only [create_structure] at h
    cases hi : createItem false k v fs with
    | error e => rw [hi] at h; exact Except.noConfusion h
    | ok fs1 =>
      rw [hi] at h
      rw [mat_files rest fs1 fs' h p, item_files k v fs fs1 hi p]

theorem item_files : ∀ (k : String) (v : Node) (fs fs1 : FSMap),
    createItem false k v fs = .ok fs1 → ∀ p, isFileAtF fs1 p = isFileAtF fs p
  | k, .leaf, fs, fs1, h, p => by
    have h' : Except.ok (ε := Unit) fs = .ok fs1 := h
    cases h'
    rfl
  | k, .container ch, fs, fs1, h, p => by
    simp only [createItem] at h
    split at h
    · exact Except.noConfusion h
    · next sub heq =>
        split at h
        · exact Except.noConfusion h
        · next sub1 hre =>
            cases h
            exact isFileAtF_updateF_dir fs k sub sub1 p heq
              (fun q => mat_files ch sub sub1 hre q)
    · next heq =>
        split at h
        · exact Except.noConfusion h
        · next sub1 hre =>
            cases h
            refine isFileAtF_appendF_fresh fs k sub1 p
              (contains_false_of_lookupF_none fs k heq) ?_
            intro q
            rw [mat_files ch .nil sub1 hre q, isFileAtF_nil q]

end

theorem hasDirPathN_nil : ∀ (p : List String), hasDirPathN .nil p = false
  | [] => rfl
  | k :: ps => by simp [hasDirPathN, lookupN]

theorem hasDirPathN_single_leaf : ∀ (k : String) (p : List String),
    hasDirPathN (.cons k .leaf .nil) p = false
  | k, [] => rfl
  | k, j :: ps => by
    unfold hasDirPathN
    by_cases hjk : k = j
    · rw [show lookupN j (.cons k .leaf .nil) = some .leaf from by
        unfold lookupN; rw [if_pos hjk]]
    · rw [show lookupN j (.cons k .leaf .nil) = none from by
        unfold lookupN; rw [if_neg hjk]; rfl]

theorem lookupN_cons (a : String) (v : Node) (r : NodeMap) (k : String) :
    lookupN k (.cons a v r) = if a = k then some v else lookupN k r := rfl

theorem hasDirPathN_cons_ne (k : String) (v : Node) (rest : NodeMap) (j : String)
    (ps : List String) (h : ¬ k = j) :
    hasDirPathN (.cons k v rest) (j :: ps) = hasDirPathN rest (j :: ps) := by
  unfold hasDirPathN
  rw [show lookupN j (.cons k v rest) = lookupN j rest from by
    rw [lookupN_cons, if_neg h]]

theorem hasDirPathN_cons_head (k : String) (v : Node) (rest : NodeMap)
    (ps : List String) :
    hasDirPathN (.cons k v rest) (k :: ps) = hasDirPathN (.cons k v .nil) (k :: ps) := by
  unfold hasDirPathN
  rw [show lookupN k (.cons k v rest) = some v from by
      unfold lookupN; rw [if_pos rfl],
    show lookupN k (.cons k v .nil) = some v from by
      unfold lookupN; rw [if_pos rfl]]

theorem hasDirPathN_single_container : ∀ (k : String) (ch : NodeMap) (p : List String),
    hasDirPathN (.cons k (.container ch) .nil) p = true →
    ∃ ps, p = k :: ps ∧ (ps = [] ∨ hasDirPathN ch ps = true)
  | k, ch, [], h => by exact Bool.noConfusion h
  | k, ch, j :: ps, h => by
    by_cases hjk : k = j
    · subst hjk
      refine ⟨ps, rfl, ?_⟩
      cases ps with
      | nil => exact Or.inl rfl
      | cons b bs =>
        right
        unfold hasDirPathN at h
        rw [show lookupN k (.cons k (.container ch) .nil) = some (.container ch) from by
          unfold lookupN; rw [if_pos rfl]] at h
        exact h
    · exfalso
      unfold hasDirPathN at h
      rw [show lookupN j (.cons k (.container ch) .nil) = none from by
        unfold lookupN; rw [if_neg hjk]; rfl] at h
      exact Bool.noConfusion h

mutual

theorem mat_dirs : ∀ (s : NodeMap) (fs fs' : FSMap),
    create_structure false s fs = .ok fs' → ∀ p,
    hasDirPathN s p = true → isDirAtF fs' p = true
  | .nil, fs, fs', h, p, hp => by
    rw [hasDirPathN_nil p] at hp
    exact Bool.noConfusion hp
  | .cons k v rest, fs, fs', h, p, hp => by
    simp only [create_structure] at h
    cases hi : createItem false k v fs with
    | error e => rw [hi] at h; exact Except.noConfusion h
    | ok fs1 =>
      rw [hi] at h
      cases p with
      | nil => exact Bool.noConfusion hp
      | cons j ps =>
        by_cases hjk : k = j
        · subst hjk
          rw [hasDirPathN_cons_head k v rest ps] at hp
          exact mat_mono_dir false rest fs1 fs' h (k :: ps)
            (item_dirs k v fs fs1 hi (k :: ps) hp)
        · rw [hasDirPathN_cons_ne k v rest j ps hjk] at hp
          exact mat_dirs rest fs1 fs' h (j :: ps) hp

theorem item_dirs : ∀ (k : String) (v : Node) (fs fs1 : FSMap),
    createItem false k v fs = .ok fs1 → ∀ p,
    hasDirPathN (.cons k v .nil) p = true → isDirAtF fs1 p = true
  | k, .leaf, fs, fs1, h, p, hp => by
    rw [hasDirPathN_single_leaf k p] at hp
    exact Bool.noConfusion hp
  | k, .container ch, fs, fs1, h, p, hp => by
    obtain ⟨ps, rfl, hx⟩ := hasDirPathN_single_container k ch p hp
    simp only [createItem] at h
    split at h
    · exact Except.noConfusion h
    · next sub heq =>
        split at h
        · exact Except.noConfusion h
        · next sub1 hre =>
            cases h
            have hlk1 : lookupF k (updateF k (.dir sub1) fs) = some (.dir sub1) :=
              lookupF_updateF_self fs k (.dir sub1)
                (contains_true_of_lookupF_some fs k (.dir sub) heq)
            rcases hx with rfl | hx
            · unfold isDirAtF
              rw [hlk1]
              rfl
            · have hsub1 : isDirAtF sub1 ps = true := mat_dirs ch sub sub1 hre ps hx
              unfold isDirAtF
              rw [hlk1]
              cases ps with
              | nil => rfl
              | cons b bs => exact hsub1
    · next heq =>
        split at h
        · exact Except.noConfusion h
        · next sub1 hre =>
            cases h
            have hlk1 : lookupF k (appendF k (.dir sub1) fs) = some (.dir sub1) :=
              lookupF_appendF_self fs k (.dir sub1)
                (contains_false_of_lookupF_none fs k heq)
            rcases hx with rfl | hx
            · unfold isDirAtF
              rw [hlk1]
              rfl
            · have hsub1 : isDirAtF sub1 ps = true := mat_dirs ch .nil sub1 hre ps hx
              unfold isDirAtF
              rw [hlk1]
              cases ps with
              | nil => rfl
              | cons b bs => exact hsub1

end

/-- C9: a folders-only run (file creation disabled) that ends without error
creates no file at all (the set of file paths of the target is unchanged,
every Leaf is skipped) and creates a directory for every Container of the
structure, recursively. -/
theorem c9_folders_only (s : NodeMap) (fs fs' : FSMap)
    (h : create_structure false s fs = .ok fs') :
    (∀ p, isFileAtF fs' p = isFileAtF fs p) ∧
    (∀ p, hasDirPathN s p = true → isDirAtF fs' p = true) :=
  ⟨mat_files s fs fs' h, mat_dirs s fs fs' h⟩

/-- C9 witness: a folder containing one file, materialized folders-only
into an empty target: the directory appears and no file does. -/
theorem c9_witness :
    create_structure false (.cons "d" (.container (.cons "f" .leaf .nil)) .nil) .nil =
      .ok (.cons "d" (.dir .nil) .nil) ∧
    isFileAtF (.cons "d" (.dir .nil) .nil) ["d", "f"] = isFileAtF .nil ["d", "f"] ∧
    isDirAtF (.cons "d" (.dir .nil) .nil) ["d"] = true :=
  ⟨rfl,
    (c9_folders_only (.cons "d" (.container (.cons "f" .leaf .nil)) .nil) .nil
      (.cons "d" (.dir .nil) .nil) rfl).1 ["d", "f"],
    (c9_folders_only (.cons "d" (.container (.cons "f" .leaf .nil)) .nil) .nil
      (.cons "d" (.dir .nil) .nil) rfl).2 ["d"] rfl⟩
